import Mathlib

/-!
Formal model of the `azure-devops-release-notes` repository.

The repository is a Python reporting script with two components that carry
logic: `src/azure_devops_client.py` (field normalization, a two-tier release
fetch, contributor aggregation) and `src/markdown_generator.py` (a pure
function from work items, releases and contributors to a markdown document).

Modelling conventions:
* Python strings are `String` / `List Char`; `None`-able values are `Option`.
* Python exceptions are `Except`/`Option`: a network call is an oracle value
  of type `Except String α` (either the parsed response or a raised error),
  and a function that can raise returns `Option`.
* Python truthiness on strings (`if s:`) is `s ≠ ""`, on lists emptiness,
  on `None` falsity.
* Python stdlib helpers used by the code (`str.strip`, `re` patterns,
  `datetime.fromisoformat`, `strftime`) are modelled explicitly below, each
  with a comment stating the modelled behaviour.
-/

/-- Whitespace as stripped by Python `str.strip()` (the ASCII whitespace
characters; rare non-ASCII Unicode space classes are not modelled). -/
def pyIsSpace (c : Char) : Bool :=
  c = ' ' || c = '\t' || c = '\n' || c = '\r' || c = '\x0b' || c = '\x0c'

/-- Python `str.strip()` on a character list: remove leading and trailing
whitespace. -/
def pyStrip (l : List Char) : List Char :=
  List.rdropWhile pyIsSpace (List.dropWhile pyIsSpace l)

/-- Python `str.strip()` on strings. -/
def pyStripStr (s : String) : String :=
  String.mk (pyStrip s.data)

/-- `models.WorkItem`: plain record for one work item. -/
structure WorkItem where
  id : Int
  title : String
  type : String
  state : String
  iteration_path : String := "N/A"
  notes : Option String := none
deriving DecidableEq

/-- `models.Release`: plain record for one microservice release. -/
structure Release where
  microservice : String
  version : String
  prod_deploy_time : Option String := none
  release_id : String := ""
  definition_id : String := ""
deriving DecidableEq

/-- `AzureDevOpsClient._parse_notes_field`: `None` or an empty string is
falsy and maps to `None`; otherwise the notes are stripped of surrounding
whitespace and an all-whitespace result maps to `None`; interior markup is
kept verbatim. -/
def parse_notes_field (raw_notes : Option String) : Option String :=
  match raw_notes with
  | none => none
  | some s =>
    if s = "" then none
    else
      let cleaned_notes := pyStripStr s
      if cleaned_notes = "" then none else some cleaned_notes

/-- One entry of an environment's `deploySteps` list; `lastModifiedOn` is
absent when the response carries no such key. -/
structure DeployStep where
  lastModifiedOn : Option String
deriving DecidableEq

/-- One entry of a classic release's `environments` list. -/
structure ReleaseEnvironment where
  name : Option String
  deploySteps : List DeployStep
deriving DecidableEq

/-- `AzureDevOpsClient._extract_prod_deployment_time`: walk the environments;
on the first one whose name equals the configured production environment and
whose `deploySteps` list is non-empty, return the last step's
`lastModifiedOn`; an environment whose name matches but has no deploy steps
is passed over, and `None` is returned when the loop finds nothing. -/
def extract_prod_deployment_time (production_environment : String) :
    List ReleaseEnvironment → Option String
  | [] => none
  | env :: rest =>
    if env.name = some production_environment then
      match env.deploySteps.getLast? with
      | some st => st.lastModifiedOn
      | none => extract_prod_deployment_time production_environment rest
    else extract_prod_deployment_time production_environment rest

/-- The `definition` object nested in a build of the Builds API response. -/
structure BuildDefinitionRef where
  name : Option String
deriving DecidableEq

/-- One build of the Builds API response. -/
structure Build where
  definition : Option BuildDefinitionRef := none
  buildNumber : Option String := none
deriving DecidableEq

/-- `AzureDevOpsClient._get_releases_from_builds`: the build-based fallback
tier. The network call is an oracle (`Except`); any raised error is caught
inside the function and an empty list returned. A parsed build becomes a
`Release` whose version is the build number, with every defaulted field of
`Release` (in particular `prod_deploy_time = none`) left at its default. -/
def get_releases_from_builds (builds_response : Except String (List Build)) :
    List Release :=
  match builds_response with
  | .error _ => []
  | .ok builds =>
    builds.map (fun b =>
      { microservice := (b.definition.bind (fun d => d.name)).getD "Unknown",
        version := b.buildNumber.getD "Unknown" })

/-- `AzureDevOpsClient.get_releases`: try the classic-release tier; on any
raised error fall back to the build tier. Both tiers are oracles: the
classic tier yields either parsed `Release` records or a raised error. -/
def get_releases (classic_response : Except String (List Release))
    (builds_response : Except String (List Build)) : List Release :=
  match classic_response with
  | .ok releases => releases
  | .error _ => get_releases_from_builds builds_response

/-- Leftmost starting index of `pat` as a contiguous substring of `s`,
or `none`. Models the scan position of Python `re` searches and of the
`in` substring test. -/
def findSub : List Char → List Char → Option Nat
  | [], pat => if pat = [] then some 0 else none
  | c :: rest, pat =>
    if pat.isPrefixOf (c :: rest) then some 0
    else (findSub rest pat).map (fun n => n + 1)

/-- Python `pattern in text` for plain (regex-free) patterns. -/
def containsSub (text pat : List Char) : Bool :=
  (findSub text pat).isSome

/-- `SYSTEM_ACCOUNT_PATTERNS` of `azure_devops_client.py`. -/
def SYSTEM_ACCOUNT_PATTERNS : List String :=
  ["Microsoft.VisualStudio.Services", "Project Collection Build Service", "<", ">"]

/-- `AzureDevOpsClient._is_system_account`: substring match against any
pattern. -/
def is_system_account (display_name : String) : Bool :=
  SYSTEM_ACCOUNT_PATTERNS.any (fun p => containsSub display_name.data p.data)

/-- The `revisedBy` identity of a work-item update. -/
structure IdentityRef where
  displayName : Option String
deriving DecidableEq

/-- One entry of the work-item updates (revision history) response. -/
structure WorkItemUpdate where
  revisedBy : Option IdentityRef := none
deriving DecidableEq

/-- `AzureDevOpsClient._extract_contributor`: the update's `revisedBy`
display name when it is present, non-empty (truthy) and not a system
account. -/
def extract_contributor (update : WorkItemUpdate) : Option String :=
  match update.revisedBy.bind (fun p => p.displayName) with
  | none => none
  | some display_name =>
    if display_name = "" then none
    else if is_system_account display_name then none
    else some display_name

/-- The set of contributors a single work item's update list yields. -/
def contributors_of_updates (updates : List WorkItemUpdate) : Finset String :=
  (updates.filterMap extract_contributor).toFinset

/-- `AzureDevOpsClient.get_work_item_contributors`: empty set for no ids;
otherwise fold over the ids, fetching each id's update history from the
oracle `fetch_updates`; a raised fetch is logged and skipped, a successful
one contributes its extracted names to the accumulated set. -/
def get_work_item_contributors
    (fetch_updates : Int → Except String (List WorkItemUpdate))
    (work_item_ids : List Int) : Finset String :=
  if work_item_ids = [] then ∅
  else
    work_item_ids.foldl (fun acc i =>
      match fetch_updates i with
      | .error _ => acc
      | .ok updates => acc ∪ contributors_of_updates updates) ∅

/-- Fuel-indexed engine of Python `re.sub(r'<[^>]+>', '', s)`: scanning left
to right, at a `<` whose following text contains a `>` with at least one
character in between, the whole `<...>` span is removed and scanning resumes
after it; any other character is kept. The fuel only bounds the recursion
and `stripTags` always supplies enough of it (every step consumes at least
one character). -/
def stripTagsF : Nat → List Char → List Char
  | _, [] => []
  | 0, l => l
  | fuel + 1, c :: rest =>
    if c = '<' then
      match rest.findIdx? (fun d => d = '>') with
      | some k => if 1 ≤ k then stripTagsF fuel (rest.drop (k + 1)) else c :: stripTagsF fuel rest
      | none => c :: stripTagsF fuel rest
    else c :: stripTagsF fuel rest

/-- Python `re.sub(r'<[^>]+>', '', s)`: remove every markup tag. -/
def stripTags (l : List Char) : List Char :=
  stripTagsF l.length l

/-- The literal `<li>`. -/
def liOpen : List Char := ['<', 'l', 'i', '>']

/-- The literal `</li>`. -/
def liClose : List Char := ['<', '/', 'l', 'i', '>']

/-- Fuel-indexed engine of Python `re.findall(r'<li>(.*?)</li>', s, re.DOTALL)`:
find the leftmost `<li>`, then the first `</li>` after it (the non-greedy
capture), record the characters in between, and continue after the `</li>`;
stop when either literal is missing. The fuel only bounds the recursion and
`findallLi` always supplies enough of it (every round consumes the two
literals). -/
def findallLiF : Nat → List Char → List (List Char)
  | 0, _ => []
  | fuel + 1, s =>
    match findSub s liOpen with
    | none => []
    | some p =>
      let after := s.drop (p + 4)
      match findSub after liClose with
      | none => []
      | some q => after.take q :: findallLiF fuel (after.drop (q + 5))

/-- Python `re.findall(r'<li>(.*?)</li>', s, re.DOTALL)`: the list of
captured `<li>...</li>` contents, left to right. -/
def findallLi (s : List Char) : List (List Char) :=
  findallLiF s.length s

/-- The per-item cleanup of `_convert_notes_to_list_items`:
`re.sub(r'<[^>]+>', '', item).strip()`. -/
def cleanLi (item : List Char) : List Char :=
  pyStrip (stripTags item)

/-- `MarkdownGenerator._convert_notes_to_list_items`: when the notes contain
`<li>...</li>` captures, each capture is tag-stripped and trimmed and the
non-empty results are returned in order; otherwise the whole notes string is
tag-stripped and trimmed and returned as a single item when non-empty. -/
def convert_notes_to_list_items (notes : String) : List String :=
  if findallLi notes.data ≠ [] then
    (((findallLi notes.data).map cleanLi).filter (fun c => c ≠ [])).map
      (fun l => String.mk l)
  else
    if pyStrip (stripTags notes.data) ≠ [] then
      [String.mk (pyStrip (stripTags notes.data))]
    else []

/-- A token of an input made of whitespace and markup only: a single
whitespace character or one complete tag. Used to state the claim that such
inputs yield no deployment sub-entries. -/
inductive MarkupTok where
  | ws : Char → MarkupTok
  | tag : List Char → MarkupTok

/-- Well-formedness of a `MarkupTok`: a whitespace token is a whitespace
character; a tag token has a non-empty body free of `<` and `>`. -/
def tokOk : MarkupTok → Prop
  | .ws c => pyIsSpace c = true
  | .tag body => body ≠ [] ∧ '<' ∉ body ∧ '>' ∉ body

/-- The characters of one token. -/
def renderTok : MarkupTok → List Char
  | .ws c => [c]
  | .tag body => '<' :: (body ++ ['>'])

/-- The characters of a token sequence. -/
def renderToks (ts : List MarkupTok) : List Char :=
  (ts.map renderTok).flatten

/-- The whitespace characters a token sequence renders outside of tags. -/
def wsChars (ts : List MarkupTok) : List Char :=
  ts.filterMap (fun t => match t with | .ws c => some c | .tag _ => none)

/-- A proleptic-Gregorian leap year, as Python's `datetime` uses. -/
def isLeapYear (y : Nat) : Bool :=
  y % 4 = 0 && (y % 100 ≠ 0 || y % 400 = 0)

/-- Number of days of month `m` of year `y` (Python `calendar`/`datetime`). -/
def daysInMonth (y m : Nat) : Nat :=
  if m = 2 then (if isLeapYear y then 29 else 28)
  else if m = 4 ∨ m = 6 ∨ m = 9 ∨ m = 11 then 30 else 31

/-- The date part of a parsed Python `datetime`; the generator's `strftime`
format only reads the year, month and day. -/
structure PyDate where
  year : Nat
  month : Nat
  day : Nat
deriving DecidableEq

/-- The numeric value of a decimal digit character. -/
def digitVal (c : Char) : Option Nat :=
  if c.isDigit then some (c.toNat - 48) else none

/-- Two decimal digits. -/
def parse2 : List Char → Option (Nat × List Char)
  | a :: b :: rest => do
    let x ← digitVal a
    let y ← digitVal b
    pure (10 * x + y, rest)
  | _ => none

/-- Four decimal digits. -/
def parse4 : List Char → Option (Nat × List Char)
  | a :: b :: rest => do
    let x ← digitVal a
    let y ← digitVal b
    let (z, rest2) ← parse2 rest
    pure (100 * (10 * x + y) + z, rest2)
  | _ => none

/-- A fractional-seconds part: a dot or comma already consumed, one or more
digits. Returns the remainder after the digits. -/
def parseFrac : List Char → Option (List Char)
  | c :: rest => if c.isDigit then some (rest.dropWhile Char.isDigit) else none
  | [] => none

/-- A UTC-offset tail after the sign: `HH`, `HH:MM` or `HH:MM:SS`, which must
end the string. -/
def parseOffsetTail (l : List Char) : Bool :=
  match parse2 l with
  | none => false
  | some (oh, rest) =>
    decide (oh ≤ 23) &&
    match rest with
    | [] => true
    | ':' :: r2 =>
      match parse2 r2 with
      | none => false
      | some (om, r3) =>
        decide (om ≤ 59) &&
        match r3 with
        | [] => true
        | ':' :: r4 =>
          match parse2 r4 with
          | none => false
          | some (os, r5) => decide (os ≤ 59) && decide (r5 = [])
        | _ => false
    | _ => false

/-- What may follow the seconds (or minutes) of the time part: nothing, a
fraction, or a UTC offset; a fraction may itself be followed by an offset. -/
def parseTimeTail (l : List Char) : Bool :=
  match l with
  | [] => true
  | '.' :: r => (match parseFrac r with
      | none => false
      | some r2 =>
        match r2 with
        | [] => true
        | '+' :: r3 => parseOffsetTail r3
        | '-' :: r3 => parseOffsetTail r3
        | _ => false)
  | ',' :: r => (match parseFrac r with
      | none => false
      | some r2 =>
        match r2 with
        | [] => true
        | '+' :: r3 => parseOffsetTail r3
        | '-' :: r3 => parseOffsetTail r3
        | _ => false)
  | '+' :: r => parseOffsetTail r
  | '-' :: r => parseOffsetTail r
  | _ => false

/-- The time-of-day part of an ISO-8601 datetime: `HH`, `HH:MM` or
`HH:MM:SS`, with an optional fraction and an optional colon-separated UTC
offset, consuming the whole remainder. -/
def parseTimePart (l : List Char) : Bool :=
  match parse2 l with
  | none => false
  | some (hh, rest) =>
    decide (hh ≤ 23) &&
    match rest with
    | [] => true
    | ':' :: r2 =>
      (match parse2 r2 with
      | none => false
      | some (mm, r3) =>
        decide (mm ≤ 59) &&
        match r3 with
        | ':' :: r4 =>
          (match parse2 r4 with
          | none => false
          | some (ss, r5) => decide (ss ≤ 59) && parseTimeTail r5)
        | _ => parseTimeTail r3)
    | '+' :: r2 => parseOffsetTail r2
    | '-' :: r2 => parseOffsetTail r2
    | '.' :: _ => parseTimeTail rest
    | ',' :: _ => parseTimeTail rest
    | _ => false

/-- Model of Python `datetime.fromisoformat` (the common subset the spec's
timestamps use): a four-digit year, `-`, two-digit month, `-`, two-digit day
with calendar validation, optionally followed by a `T` or space separator
and a valid time-of-day part with optional fraction and colon-separated UTC
offset. A valid input yields the parsed date; anything else (a raised
`ValueError`) yields `none`. -/
def fromisoformat (s : String) : Option PyDate :=
  match parse4 s.data with
  | none => none
  | some (y, r1) =>
    match r1 with
    | '-' :: r2 =>
      match parse2 r2 with
      | none => none
      | some (mo, r3) =>
        match r3 with
        | '-' :: r4 =>
          match parse2 r4 with
          | none => none
          | some (d, r5) =>
            if 1 ≤ y ∧ 1 ≤ mo ∧ mo ≤ 12 ∧ 1 ≤ d ∧ d ≤ daysInMonth y mo then
              match r5 with
              | [] => some ⟨y, mo, d⟩
              | c :: r6 =>
                if (c = 'T' ∨ c = ' ') ∧ parseTimePart r6 = true then some ⟨y, mo, d⟩
                else none
            else none
        | _ => none
    | _ => none

/-- Python `str.replace('Z', '+00:00')`: every `Z` expanded. -/
def replaceZ (s : String) : String :=
  String.mk ((s.data.map (fun c => if c = 'Z' then ['+', '0', '0', ':', '0', '0'] else [c])).flatten)

/-- English month names of `strftime('%B')`; months outside 1..12 cannot
reach the formatter because `fromisoformat` validates them. -/
def strftimeMonthName (m : Nat) : String :=
  match m with
  | 1 => "January"
  | 2 => "February"
  | 3 => "March"
  | 4 => "April"
  | 5 => "May"
  | 6 => "June"
  | 7 => "July"
  | 8 => "August"
  | 9 => "September"
  | 10 => "October"
  | 11 => "November"
  | 12 => "December"
  | _ => ""

/-- Zero-padded two-digit field of `strftime('%d')`. -/
def pad2 (n : Nat) : String :=
  if n < 10 then "0" ++ toString n else toString n

/-- `strftime('%B %d, %Y')` on a parsed date. -/
def strftimeBdY (d : PyDate) : String :=
  strftimeMonthName d.month ++ (" " ++ (pad2 d.day ++ (", " ++ toString d.year)))

/-- Lines 84-85 of `markdown_generator.py`:
`datetime.fromisoformat(t.replace('Z', '+00:00')).strftime('%B %d, %Y')`;
`none` is the raised `ValueError` of a malformed timestamp. -/
def format_timestamp (t : String) : Option String :=
  (fromisoformat (replaceZ t)).map strftimeBdY

/-- Whether a timestamp string parses in the modelled `fromisoformat` after
the `Z` replacement the generator applies. -/
def valid_iso_timestamp (t : String) : Bool :=
  (fromisoformat (replaceZ t)).isSome

/-- `MarkdownGenerator.WORK_ITEM_TYPE_ORDER`. -/
def WORK_ITEM_TYPE_ORDER : List String :=
  ["Bug", "Epic", "Feature", "User Story", "Task"]

/-- `MarkdownGenerator._get_work_item_type_emoji`:
`WORK_ITEM_TYPE_EMOJIS.get(work_type, '📌')`. -/
def get_work_item_type_emoji (work_type : String) : String :=
  if work_type = "Bug" then "🐛"
  else if work_type = "Epic" then "📘"
  else if work_type = "Feature" then "✨"
  else if work_type = "User Story" then "📝"
  else if work_type = "Task" then "🔧"
  else if work_type = "Issue" then "⚠️"
  else if work_type = "Product Backlog Item" then "📋"
  else if work_type = "Impediment" then "🚧"
  else "📌"

/-- Insert one work item into an association list of groups, Python
`defaultdict(list)` style: append to the existing group of its type, or
create a new group at the end (dict insertion order). -/
def addToGroup : List (String × List WorkItem) → WorkItem → List (String × List WorkItem)
  | [], item => [(item.type, [item])]
  | (k, v) :: rest, item =>
    if k = item.type then (k, v ++ [item]) :: rest
    else (k, v) :: addToGroup rest item

/-- `MarkdownGenerator._group_work_items_by_type`: groups keyed by work-item
type, keys in first-occurrence order, each group in input order. -/
def group_work_items_by_type (work_items : List WorkItem) : List (String × List WorkItem) :=
  work_items.foldl addToGroup []

/-- Python `grouped_items[work_type]` on a key known to be present (`[]`
for an absent key, which the generator never queries). -/
def lookupGroup (grouped : List (String × List WorkItem)) (t : String) : List WorkItem :=
  match grouped.find? (fun kv => kv.1 = t) with
  | some kv => kv.2
  | none => []

/-- `MarkdownGenerator._extract_iterations`: the distinct iteration paths
other than `N/A`, sorted descending and comma-joined; `N/A` when there are
no work items or no such paths. -/
def extract_iterations (work_items : List WorkItem) : String :=
  if work_items.isEmpty then "N/A"
  else
    let iterations := ((work_items.map (fun i => i.iteration_path)).filter
      (fun p => p ≠ "N/A")).dedup
    if iterations.isEmpty then "N/A"
    else String.intercalate ", " (iterations.insertionSort (fun a b => b ≤ a))

/-- Line 79 of `markdown_generator.py`:
`[r.prod_deploy_time for r in releases if r.prod_deploy_time]` — the truthy
(present and non-empty) production timestamps. -/
def prodTimes (releases : List Release) : List String :=
  (releases.filterMap (fun r => r.prod_deploy_time)).filter (fun t => t ≠ "")

/-- Python `max` on a list of strings (lexicographic by code point); the
generator only applies it to a non-empty list, for which the `[]` sentinel
is unreachable. -/
def maxString : List String → String
  | [] => ""
  | x :: xs => xs.foldl (fun a b => if a < b then b else a) x

/-- `MarkdownGenerator._extract_release_date`: `Unreleased` when the list is
empty or no release has a truthy timestamp; otherwise the lexicographic
maximum timestamp parsed and formatted (`none` is the `ValueError` a
malformed maximum raises). -/
def extract_release_date (releases : List Release) : Option String :=
  if releases.isEmpty then some "Unreleased"
  else
    let prod_times := prodTimes releases
    if prod_times.isEmpty then some "Unreleased"
    else format_timestamp (maxString prod_times)

/-- One line of the per-type breakdown:
`f"- {emoji} **{work_type}:** {count}"`. -/
def breakdownLine (work_type : String) (items : List WorkItem) : String :=
  "- " ++ (get_work_item_type_emoji work_type ++ (" **" ++ (work_type ++ (":** " ++ toString items.length))))

/-- `MarkdownGenerator._add_breakdown_by_type`: known types in the fixed
priority order, then the remaining keys in ascending sorted order. -/
def add_breakdown_by_type (grouped : List (String × List WorkItem)) : List String :=
  ["**Breakdown by Type:**", ""] ++
  ((WORK_ITEM_TYPE_ORDER.filter (fun t => t ∈ grouped.map Prod.fst)).map
    (fun t => breakdownLine t (lookupGroup grouped t)) ++
  (((grouped.map Prod.fst).insertionSort (fun a b => a ≤ b)).filter
      (fun t => t ∉ WORK_ITEM_TYPE_ORDER)).map
    (fun t => breakdownLine t (lookupGroup grouped t)) ++
  [""])

/-- `MarkdownGenerator._add_summary_section`; `none` when the release-date
extraction raises. -/
def add_summary_section (work_items : List WorkItem) (releases : List Release)
    (grouped : List (String × List WorkItem)) : Option (List String) :=
  (extract_release_date releases).map (fun release_date =>
    ["## 📊 Summary", "",
     "**Release Date:** " ++ release_date, "",
     "**Iteration:** " ++ extract_iterations work_items, "",
     "**Total Work Items:** " ++ toString work_items.length,
     "**Microservices Released:** " ++
       toString (if releases.isEmpty then 0 else releases.length), ""] ++
    add_breakdown_by_type grouped)

/-- The pipeline URL of a binaries-table row. -/
def pipelineUrl (org proj : String) (r : Release) : String :=
  org ++ ("/" ++ (proj ++ ("/_release?definitionId=" ++ (r.definition_id ++ "&_a=releases&view=mine"))))

/-- The release URL of a binaries-table row. -/
def releaseUrl (org proj : String) (r : Release) : String :=
  org ++ ("/" ++ (proj ++ ("/_releaseProgress?_a=release-pipeline-progress&releaseId=" ++ r.release_id)))

/-- One row of the binaries table:
`f"| {microservice_link} | {version_link} |"`. -/
def binariesRow (org proj : String) (r : Release) : String :=
  "| " ++ ("[" ++ (r.microservice ++ ("](" ++ (pipelineUrl org proj r ++
    (") | [" ++ (r.version ++ ("](" ++ (releaseUrl org proj r ++ ") |"))))))))

/-- `MarkdownGenerator._add_binaries_section`: nothing at all for an empty
release list, else heading, table header and one row per release sorted by
microservice name. -/
def add_binaries_section (org proj : String) (releases : List Release) : List String :=
  if releases.isEmpty then []
  else
    ["## 📦 Binaries", "", "| Microservice | Version |", "|--------------|---------|"] ++
    ((releases.insertionSort (fun a b => a.microservice ≤ b.microservice)).map
      (binariesRow org proj) ++
    [""])

/-- `MarkdownGenerator._build_work_item_url`. -/
def build_work_item_url (org proj : String) (work_item_id : Int) : String :=
  org ++ ("/" ++ (proj ++ ("/_workitems/edit/" ++ toString work_item_id)))

/-- `MarkdownGenerator._add_work_items_for_type`: the group header with
emoji and count, then the items sorted by ascending id, each a hyperlinked
id plus title. -/
def add_work_items_for_type (org proj : String) (work_type : String)
    (items : List WorkItem) : List String :=
  ["### " ++ (get_work_item_type_emoji work_type ++ (" " ++ (work_type ++
      (" (" ++ (toString items.length ++ ")"))))), ""] ++
  ((items.insertionSort (fun a b => a.id ≤ b.id)).map (fun i =>
    "- " ++ ("[#" ++ (toString i.id ++ ("](" ++ (build_work_item_url org proj i.id ++
      (") " ++ i.title)))))) ++
  [""])

/-- The sequence of group types the changelog (and breakdown) loops emit:
the fixed-priority known types that are present, then the sorted remaining
keys — exactly the two `for` loops of `_add_changelog_section`. -/
def changelogTypes (keys : List String) : List String :=
  WORK_ITEM_TYPE_ORDER.filter (fun t => t ∈ keys) ++
  (keys.insertionSort (fun a b => a ≤ b)).filter (fun t => t ∉ WORK_ITEM_TYPE_ORDER)

/-- `MarkdownGenerator._add_changelog_section`: heading, then the per-type
blocks in the loop order `changelogTypes` (mapping a block over the
concatenation of the two loops' type sequences equals running the loops). -/
def add_changelog_section (org proj : String)
    (grouped : List (String × List WorkItem)) : List String :=
  ["## 📝 Changelog", ""] ++
  ((changelogTypes (grouped.map Prod.fst)).map (fun t =>
    add_work_items_for_type org proj t (lookupGroup grouped t))).flatten

/-- Python truthiness of the optional notes field (`if item.notes`). -/
def notes_truthy : Option String → Bool
  | none => false
  | some s => s ≠ ""

/-- `MarkdownGenerator._filter_items_with_notes`: the items with truthy
notes, sorted by ascending id. -/
def filter_items_with_notes (work_items : List WorkItem) : List WorkItem :=
  (work_items.filter (fun i => notes_truthy i.notes)).insertionSort (fun a b => a.id ≤ b.id)

/-- `MarkdownGenerator._add_deployment_instruction_item`: the hyperlinked id,
one indented sub-entry per extracted note item, then a blank line. The items
reaching this function were filtered to truthy notes, so the `getD ""`
default is never read. -/
def add_deployment_instruction_item (org proj : String) (item : WorkItem) : List String :=
  ("- " ++ ("[#" ++ (toString item.id ++ ("](" ++ (build_work_item_url org proj item.id ++ ")"))))) ::
  ((convert_notes_to_list_items (item.notes.getD "")).map (fun n => "  - " ++ n) ++ [""])

/-- `MarkdownGenerator._add_deployment_instructions_section`: nothing at all
when no item has truthy notes. -/
def add_deployment_instructions_section (org proj : String)
    (work_items : List WorkItem) : List String :=
  let items_with_notes := filter_items_with_notes work_items
  if items_with_notes.isEmpty then []
  else
    ["## 🚀 Deployment Instructions", ""] ++
    (items_with_notes.map (add_deployment_instruction_item org proj)).flatten

/-- `MarkdownGenerator._add_contributors_section`: nothing at all for an
empty set, else the heading and the sorted names. -/
def add_contributors_section (contributors : Finset String) : List String :=
  if contributors = ∅ then []
  else
    ["## 👥 Contributors", ""] ++
    ((contributors.sort (fun a b => a ≤ b)).map (fun c => "- " ++ c) ++ [""])

/-- `MarkdownGenerator.generate` up to the final `'\n'.join`: the title, the
summary, and the four conditional sections; `none` when the summary's
release-date extraction raises. -/
def generate_lines (org proj release_number : String) (work_items : List WorkItem)
    (releases : List Release) (contributors : Finset String) : Option (List String) :=
  let grouped := group_work_items_by_type work_items
  (add_summary_section work_items releases grouped).map (fun summary =>
    ("# Release Notes - " ++ release_number) :: "" :: summary ++
    add_binaries_section org proj releases ++
    add_changelog_section org proj grouped ++
    add_deployment_instructions_section org proj work_items ++
    add_contributors_section contributors)

/-- `MarkdownGenerator.generate`: the joined markdown document, `none` when
generation raises. -/
def generate (org proj release_number : String) (work_items : List WorkItem)
    (releases : List Release) (contributors : Finset String) : Option String :=
  (generate_lines org proj release_number work_items releases contributors).map
    (String.intercalate "\n")

/-- Concrete input of the C1 witness. -/
def c1Release : Release :=
  { microservice := "svc", version := "1.0",
    prod_deploy_time := some "2024-03-05T10:00:00Z" }

/-- Concrete release of the C5 witness. -/
def c5Release : Release :=
  { microservice := "m", version := "v", prod_deploy_time := none,
    release_id := "i", definition_id := "d" }

/-- The document the generator produces at the C5 witness input. -/
def c5Lines : List String :=
  ["# Release Notes - R", "", "## 📊 Summary", "", "**Release Date:** Unreleased", "",
   "**Iteration:** N/A", "", "**Total Work Items:** 0", "**Microservices Released:** 1",
   "", "**Breakdown by Type:**", "", "", "## 📦 Binaries", "",
   "| Microservice | Version |", "|--------------|---------|",
   "| [m](o/p/_release?definitionId=d&_a=releases&view=mine) | [v](o/p/_releaseProgress?_a=release-pipeline-progress&releaseId=i) |",
   "", "## 📝 Changelog", ""]

/-! ## Theorems -/

theorem pyStrip_idem (l : List Char) : pyStrip (pyStrip l) = pyStrip l := by
  unfold pyStrip
  have hdw : List.dropWhile pyIsSpace
      (List.rdropWhile pyIsSpace (List.dropWhile pyIsSpace l)) =
      List.rdropWhile pyIsSpace (List.dropWhile pyIsSpace l) := by
    cases hk : List.rdropWhile pyIsSpace (List.dropWhile pyIsSpace l) with
    | nil => simp
    | cons c t =>
      have hpre : List.rdropWhile pyIsSpace (List.dropWhile pyIsSpace l) <+:
          List.dropWhile pyIsSpace l := List.rdropWhile_prefix _ _
      rw [hk] at hpre
      obtain ⟨rest, hrest⟩ := hpre
      have hmm : List.dropWhile pyIsSpace (List.dropWhile pyIsSpace l) =
          List.dropWhile pyIsSpace l := List.dropWhile_idempotent _ _
      rw [← hrest] at hmm
      simp only [List.cons_append] at hmm
      rw [List.dropWhile_cons] at hmm
      by_cases hc : pyIsSpace c = true
      · rw [if_pos hc] at hmm
        have hlen := congrArg List.length hmm
        have hle : (List.dropWhile pyIsSpace (t ++ rest)).length ≤ (t ++ rest).length :=
          (List.dropWhile_suffix pyIsSpace).sublist.length_le
        simp only [List.length_cons] at hlen
        omega
      · rw [List.dropWhile_cons, if_neg hc]
  rw [hdw, List.rdropWhile_idempotent]

theorem pyStrip_infix (l : List Char) : pyStrip l <:+: l :=
  ((List.rdropWhile_prefix pyIsSpace (List.dropWhile pyIsSpace l)).isInfix).trans
    (List.dropWhile_suffix pyIsSpace).isInfix

theorem pyStrip_of_all_space {l : List Char} (h : ∀ c ∈ l, pyIsSpace c = true) :
    pyStrip l = [] := by
  unfold pyStrip
  rw [List.dropWhile_eq_nil_iff.mpr h, List.rdropWhile_nil]

/-- C7. Notes normalization (`AzureDevOpsClient._parse_notes_field`) is
idempotent; an empty or all-whitespace string normalizes to absent; any
other string normalizes to its whitespace-stripped self; and the normalized
text is a contiguous piece of the raw text, so interior markup is kept
verbatim. -/
theorem notes_normalization :
    (∀ x, parse_notes_field (parse_notes_field x) = parse_notes_field x)
    ∧ (∀ s : String, (∀ c ∈ s.data, pyIsSpace c = true) → parse_notes_field (some s) = none)
    ∧ (∀ s : String, pyStripStr s ≠ "" → parse_notes_field (some s) = some (pyStripStr s))
    ∧ (∀ s t : String, parse_notes_field (some s) = some t → t.data <:+: s.data) := by
  have hmk : ∀ l : List Char, (String.mk l = "") ↔ l = [] := by
    intro l
    rw [String.ext_iff]
  have hstrip_idem : ∀ s : String, pyStripStr (pyStripStr s) = pyStripStr s := by
    intro s
    show String.mk (pyStrip (pyStrip s.data)) = String.mk (pyStrip s.data)
    rw [pyStrip_idem]
  refine ⟨?_, ?_, ?_, ?_⟩
  · intro x
    match x with
    | none => rfl
    | some s =>
      by_cases hs : s = ""
      · simp [parse_notes_field, hs]
      · by_cases hc : pyStripStr s = ""
        · simp [parse_notes_field, hs, hc]
        · have hc2 : pyStripStr (pyStripStr s) = pyStripStr s := hstrip_idem s
          simp [parse_notes_field, hs, hc, hc2]
  · intro s h
    have h1 : pyStripStr s = "" := by
      show String.mk (pyStrip s.data) = ""
      rw [hmk, pyStrip_of_all_space h]
    by_cases hs : s = ""
    · simp [parse_notes_field, hs]
    · simp [parse_notes_field, hs, h1]
  · intro s h
    have hs : s ≠ "" := by
      intro he
      apply h
      rw [he]
      rfl
    simp [parse_notes_field, hs, h]
  · intro s t h
    by_cases hs : s = ""
    · simp [parse_notes_field, hs] at h
    · by_cases hc : pyStripStr s = ""
      · simp [parse_notes_field, hs, hc] at h
      · simp [parse_notes_field, hs, hc] at h
        rw [← h]
        show pyStrip s.data <:+: s.data
        exact pyStrip_infix s.data

/-- C8. Production-timestamp extraction: when no environment carries the
configured name the timestamp is absent, and when exactly one does, the
result is its last deploy step's timestamp — absent when it has no deploy
steps (`getLast? = none`) or the last step carries no timestamp. -/
theorem prod_timestamp_extraction (prod : String) (envs : List ReleaseEnvironment) :
    ((∀ e ∈ envs, e.name ≠ some prod) →
      extract_prod_deployment_time prod envs = none)
    ∧ (∀ e : ReleaseEnvironment,
        envs.filter (fun x => x.name = some prod) = [e] →
        extract_prod_deployment_time prod envs =
          match e.deploySteps.getLast? with
          | some st => st.lastModifiedOn
          | none => none) := by
  induction envs with
  | nil =>
    refine ⟨fun _ => rfl, ?_⟩
    intro e he
    simp at he
  | cons env rest ih =>
    constructor
    · intro h
      have hn : env.name ≠ some prod := h env (List.mem_cons_self _ _)
      rw [extract_prod_deployment_time, if_neg hn]
      exact ih.1 (fun e he => h e (List.mem_cons_of_mem _ he))
    · intro e he
      by_cases hn : env.name = some prod
      · rw [List.filter_cons_of_pos (by simp [hn])] at he
        have he2 : env = e ∧ List.filter (fun x => x.name = some prod) rest = [] := by
          constructor
          · exact (List.cons_eq_cons.mp he).1
          · exact (List.cons_eq_cons.mp he).2
        obtain ⟨rfl, hrest⟩ := he2
        rw [extract_prod_deployment_time, if_pos hn]
        cases hg : env.deploySteps.getLast? with
        | some st => rfl
        | none =>
          have hnone : ∀ e2 ∈ rest, e2.name ≠ some prod := by
            intro e2 he2m
            have := List.filter_eq_nil_iff.mp hrest e2 he2m
            simpa using this
          exact ih.1 hnone
      · rw [List.filter_cons_of_neg (by simp [hn])] at he
        rw [extract_prod_deployment_time, if_neg hn]
        exact ih.2 e he

/-- C2. Two-tier release fetch: a raised classic tier always yields the
build fallback's value; every fallback release has an absent production
timestamp and the build number as its version; and when both tiers raise,
the result is the empty list rather than a propagated error. -/
theorem two_tier_release_fetch :
    (∀ (err : String) (builds_response : Except String (List Build)),
      get_releases (Except.error err) builds_response = get_releases_from_builds builds_response)
    ∧ (∀ (builds : List Build), ∀ r ∈ get_releases_from_builds (Except.ok builds),
        r.prod_deploy_time = none ∧
        ∃ b ∈ builds, r.version = b.buildNumber.getD "Unknown" ∧
          r.microservice = (b.definition.bind (fun d => d.name)).getD "Unknown")
    ∧ (∀ (err err2 : String),
        get_releases (Except.error err) (Except.error err2) = ([] : List Release)) := by
  refine ⟨fun _ _ => rfl, ?_, fun _ _ => rfl⟩
  intro builds r hr
  simp only [get_releases_from_builds, List.mem_map] at hr
  obtain ⟨b, hb, rfl⟩ := hr
  exact ⟨rfl, b, hb, rfl, rfl⟩

theorem contributors_foldl_mem
    (fetch_updates : Int → Except String (List WorkItemUpdate))
    (ids : List Int) (acc : Finset String) (name : String) :
    name ∈ ids.foldl (fun acc i =>
      match fetch_updates i with
      | .error _ => acc
      | .ok updates => acc ∪ contributors_of_updates updates) acc ↔
    name ∈ acc ∨ ∃ i ∈ ids, ∃ updates, fetch_updates i = Except.ok updates ∧
      name ∈ contributors_of_updates updates := by
  induction ids generalizing acc with
  | nil => simp
  | cons i rest ih =>
    rw [List.foldl_cons, ih]
    cases hf : fetch_updates i with
    | error e =>
      simp only [hf, List.exists_mem_cons_iff]
      constructor
      · intro h
        rcases h with h1 | h2
        · exact Or.inl h1
        · exact Or.inr (Or.inr h2)
      · intro h
        rcases h with h1 | h2 | h3
        · exact Or.inl h1
        · obtain ⟨u, hu, _⟩ := h2
          simp at hu
        · exact Or.inr h3
    | ok updates =>
      simp only [hf, Finset.mem_union, List.exists_mem_cons_iff]
      constructor
      · intro h
        rcases h with (h1 | h2) | h3
        · exact Or.inl h1
        · exact Or.inr (Or.inl ⟨updates, rfl, h2⟩)
        · exact Or.inr (Or.inr h3)
      · intro h
        rcases h with h1 | h2 | h3
        · exact Or.inl (Or.inl h1)
        · obtain ⟨u, hu, hmem⟩ := h2
          cases hu
          exact Or.inl (Or.inr hmem)
        · exact Or.inr h3

/-- C6. Contributor aggregation isolates per-id failures: a name is in the
aggregated set exactly when some id's update fetch succeeded and yielded it,
whatever errors the other ids raised — the result is the union over the
succeeding ids and the function never propagates a fetch error. -/
theorem contributor_failure_isolation
    (fetch_updates : Int → Except String (List WorkItemUpdate))
    (work_item_ids : List Int) (name : String) :
    name ∈ get_work_item_contributors fetch_updates work_item_ids ↔
      ∃ i ∈ work_item_ids, ∃ updates,
        fetch_updates i = Except.ok updates ∧
        name ∈ contributors_of_updates updates := by
  unfold get_work_item_contributors
  by_cases hids : work_item_ids = []
  · simp [hids]
  · rw [if_neg hids, contributors_foldl_mem]
    simp

theorem append_ne_of_not_prefix (p r t : String)
    (h : ¬ p.data.isPrefixOf t.data = true) : p ++ r ≠ t := by
  intro he
  apply h
  rw [List.isPrefixOf_iff_prefix, ← he, String.data_append]
  exact List.prefix_append _ _

theorem string_empty_append (s : String) : "" ++ s = s := by
  obtain ⟨l⟩ := s
  rfl

theorem strftimeBdY_ne_unreleased (d : PyDate) : strftimeBdY d ≠ "Unreleased" := by
  obtain ⟨y, m, dd⟩ := d
  show strftimeMonthName m ++ (" " ++ (pad2 dd ++ (", " ++ toString y))) ≠ "Unreleased"
  rcases m with _ | _ | _ | _ | _ | _ | _ | _ | _ | _ | _ | _ | _ | m
  all_goals first
    | exact append_ne_of_not_prefix _ _ _ (by decide)
    | (show "" ++ (" " ++ (pad2 dd ++ (", " ++ toString y))) ≠ "Unreleased"
       rw [string_empty_append]
       exact append_ne_of_not_prefix _ _ _ (by decide))

theorem maxString_mem {l : List String} (h : l ≠ []) : maxString l ∈ l := by
  match l with
  | [] => exact absurd rfl h
  | x :: xs =>
    have haux : ∀ (ys : List String) (a : String),
        ys.foldl (fun a b => if a < b then b else a) a = a ∨
        ys.foldl (fun a b => if a < b then b else a) a ∈ ys := by
      intro ys
      induction ys with
      | nil => intro a; exact Or.inl rfl
      | cons b bs ih =>
        intro a
        rw [List.foldl_cons]
        by_cases hab : a < b
        · rw [if_pos hab]
          rcases ih b with h1 | h2
          · exact Or.inr (by rw [h1]; exact List.mem_cons_self _ _)
          · exact Or.inr (List.mem_cons_of_mem _ h2)
        · rw [if_neg hab]
          rcases ih a with h1 | h2
          · exact Or.inl h1
          · exact Or.inr (List.mem_cons_of_mem _ h2)
    have hms : maxString (x :: xs) = xs.foldl (fun a b => if a < b then b else a) x := rfl
    rcases haux xs x with h1 | h2
    · rw [hms, h1]; exact List.mem_cons_self _ _
    · rw [hms]; exact List.mem_cons_of_mem _ h2

theorem le_maxString {l : List String} {u : String} (hu : u ∈ l) : u ≤ maxString l := by
  have haux : ∀ (ys : List String) (a : String),
      a ≤ ys.foldl (fun a b => if a < b then b else a) a ∧
      ∀ v ∈ ys, v ≤ ys.foldl (fun a b => if a < b then b else a) a := by
    intro ys
    induction ys with
    | nil => intro a; exact ⟨le_refl a, by simp⟩
    | cons b bs ih =>
      intro a
      rw [List.foldl_cons]
      have hstep : a ≤ (if a < b then b else a) ∧ b ≤ (if a < b then b else a) := by
        by_cases hab : a < b
        · rw [if_pos hab]; exact ⟨le_of_lt hab, le_refl b⟩
        · rw [if_neg hab]; exact ⟨le_refl a, le_of_not_lt hab⟩
      refine ⟨le_trans hstep.1 (ih _).1, ?_⟩
      intro v hv
      rcases List.mem_cons.mp hv with rfl | hv2
      · exact le_trans hstep.2 (ih _).1
      · exact (ih _).2 v hv2
  match l with
  | [] => exact absurd hu (List.not_mem_nil u)
  | x :: xs =>
    have hms : maxString (x :: xs) = xs.foldl (fun a b => if a < b then b else a) x := rfl
    rw [hms]
    rcases List.mem_cons.mp hu with rfl | hv2
    · exact (haux xs u).1
    · exact (haux xs x).2 u hv2

/-- C1. Release-date extraction (`MarkdownGenerator._extract_release_date`),
for releases whose present timestamps are non-empty strings (the data model
stores an optional ISO-8601 text, never the empty string): the result is
`Unreleased` exactly when the list is empty or every timestamp is absent,
and otherwise it is the lexicographically greatest non-absent timestamp
pushed through the month/day/year formatter `format_timestamp`. -/
theorem release_date_extraction (releases : List Release)
    (htruthy : ∀ r ∈ releases, r.prod_deploy_time ≠ some "") :
    (extract_release_date releases = some "Unreleased" ↔
      releases = [] ∨ ∀ r ∈ releases, r.prod_deploy_time = none)
    ∧ (¬ (releases = [] ∨ ∀ r ∈ releases, r.prod_deploy_time = none) →
      extract_release_date releases =
        format_timestamp (maxString (releases.filterMap (fun r => r.prod_deploy_time)))) := by
  have hpt : prodTimes releases = releases.filterMap (fun r => r.prod_deploy_time) := by
    unfold prodTimes
    apply List.filter_eq_self.mpr
    intro t ht
    obtain ⟨r, hr, hrt⟩ := List.mem_filterMap.mp ht
    have htne : t ≠ "" := by
      intro he
      exact htruthy r hr (by rw [hrt, he])
    simp [htne]
  have hmemtime : ∀ r ∈ releases, ∀ t, r.prod_deploy_time = some t →
      t ∈ prodTimes releases := by
    intro r hr t hp
    have htne : t ≠ "" := by
      intro he
      exact htruthy r hr (by rw [hp, he])
    unfold prodTimes
    exact List.mem_filter.mpr ⟨List.mem_filterMap.mpr ⟨r, hr, hp⟩, by simp [htne]⟩
  constructor
  · constructor
    · intro hex
      unfold extract_release_date at hex
      by_cases h1 : releases.isEmpty
      · exact Or.inl (List.isEmpty_iff.mp h1)
      · rw [if_neg h1] at hex
        by_cases h2 : (prodTimes releases).isEmpty
        · right
          intro r hr
          cases hp : r.prod_deploy_time with
          | none => rfl
          | some t =>
            exfalso
            have htm := hmemtime r hr t hp
            rw [List.isEmpty_iff.mp h2] at htm
            cases htm
        · rw [if_neg h2] at hex
          exfalso
          obtain ⟨d, _, hd2⟩ := Option.map_eq_some'.mp hex
          exact strftimeBdY_ne_unreleased d hd2
    · intro hor
      unfold extract_release_date
      rcases hor with he | hall
      · rw [if_pos (by simp [he])]
      · by_cases h1 : releases.isEmpty
        · rw [if_pos h1]
        · rw [if_neg h1]
          have hnil : prodTimes releases = [] := by
            unfold prodTimes
            rw [List.filterMap_eq_nil_iff.mpr hall]
            rfl
          rw [if_pos (by simp [hnil])]
  · intro hnot
    push_neg at hnot
    obtain ⟨hne, r, hr, hrne⟩ := hnot
    unfold extract_release_date
    rw [if_neg (by simp [hne])]
    cases hp : r.prod_deploy_time with
    | none => exact absurd hp hrne
    | some t =>
      have htm := hmemtime r hr t hp
      have h2 : ¬ (prodTimes releases).isEmpty := by
        intro h
        rw [List.isEmpty_iff.mp h] at htm
        cases htm
      rw [if_neg h2, hpt]


/-- Witness for C1 at one release with a present, non-empty timestamp. -/
theorem release_date_extraction_witness :
    (∀ r ∈ [c1Release], r.prod_deploy_time ≠ some "")
    ∧ ((extract_release_date [c1Release] = some "Unreleased" ↔
          [c1Release] = [] ∨ ∀ r ∈ [c1Release], r.prod_deploy_time = none)
       ∧ (¬ ([c1Release] = [] ∨ ∀ r ∈ [c1Release], r.prod_deploy_time = none) →
          extract_release_date [c1Release] =
            format_timestamp (maxString ([c1Release].filterMap (fun r => r.prod_deploy_time))))) :=
  ⟨by decide, release_date_extraction [c1Release] (by decide)⟩

theorem mem_addToGroup_keys (g : List (String × List WorkItem)) (item : WorkItem)
    (t : String) :
    t ∈ (addToGroup g item).map Prod.fst ↔ t ∈ g.map Prod.fst ∨ t = item.type := by
  induction g with
  | nil => simp [addToGroup]
  | cons kv rest ih =>
    obtain ⟨k, v⟩ := kv
    by_cases hk : k = item.type
    · rw [addToGroup, if_pos hk]
      constructor
      · intro h
        rcases List.mem_cons.mp h with rfl | h2
        · exact Or.inl (List.mem_cons_self _ _)
        · exact Or.inl (List.mem_cons_of_mem _ h2)
      · intro h
        rcases h with h1 | rfl
        · exact h1
        · rw [← hk]
          exact List.mem_cons_self _ _
    · rw [addToGroup, if_neg hk]
      simp only [List.map_cons, List.mem_cons, ih]
      tauto

theorem nodup_addToGroup_keys (g : List (String × List WorkItem)) (item : WorkItem)
    (h : (g.map Prod.fst).Nodup) : ((addToGroup g item).map Prod.fst).Nodup := by
  induction g with
  | nil => simp [addToGroup]
  | cons kv rest ih =>
    obtain ⟨k, v⟩ := kv
    simp only [List.map_cons, List.nodup_cons] at h
    by_cases hk : k = item.type
    · rw [addToGroup, if_pos hk]
      simp only [List.map_cons, List.nodup_cons]
      exact h
    · rw [addToGroup, if_neg hk]
      simp only [List.map_cons, List.nodup_cons]
      refine ⟨?_, ih h.2⟩
      intro hmem
      rcases (mem_addToGroup_keys rest item k).mp hmem with h1 | h2
      · exact h.1 h1
      · exact hk h2

theorem mem_group_keys_foldl (items : List WorkItem)
    (g : List (String × List WorkItem)) (t : String) :
    t ∈ (items.foldl addToGroup g).map Prod.fst ↔
      t ∈ g.map Prod.fst ∨ ∃ i ∈ items, i.type = t := by
  induction items generalizing g with
  | nil => simp
  | cons i rest ih =>
    rw [List.foldl_cons, ih, mem_addToGroup_keys]
    simp only [List.exists_mem_cons_iff]
    constructor
    · intro h
      rcases h with (h1 | h2) | h3
      · exact Or.inl h1
      · exact Or.inr (Or.inl h2.symm)
      · exact Or.inr (Or.inr h3)
    · intro h
      rcases h with h1 | h2 | h3
      · exact Or.inl (Or.inl h1)
      · exact Or.inl (Or.inr h2.symm)
      · exact Or.inr h3

theorem mem_group_keys (items : List WorkItem) (t : String) :
    t ∈ (group_work_items_by_type items).map Prod.fst ↔ ∃ i ∈ items, i.type = t := by
  unfold group_work_items_by_type
  rw [mem_group_keys_foldl]
  simp

theorem nodup_group_keys (items : List WorkItem) :
    ((group_work_items_by_type items).map Prod.fst).Nodup := by
  unfold group_work_items_by_type
  have haux : ∀ (l : List WorkItem) (g : List (String × List WorkItem)),
      (g.map Prod.fst).Nodup → ((l.foldl addToGroup g).map Prod.fst).Nodup := by
    intro l
    induction l with
    | nil => intro g hg; exact hg
    | cons i rest ih =>
      intro g hg
      rw [List.foldl_cons]
      exact ih _ (nodup_addToGroup_keys g i hg)
  exact haux items [] (by simp)

/-- C3. Changelog group ordering: the sequence of type groups the changelog
loops emit decomposes as the known types that occur among the work items, in
the fixed priority order, followed by a strictly ascending (lexicographic)
run of exactly the unknown types that occur; every known type present
therefore precedes every unknown type present, and the emitted types are
exactly the types present. -/
theorem changelog_group_ordering (items : List WorkItem) :
    ∃ us : List String,
      changelogTypes ((group_work_items_by_type items).map Prod.fst)
        = WORK_ITEM_TYPE_ORDER.filter (fun t => ∃ i ∈ items, i.type = t) ++ us
      ∧ List.Sorted (fun a b : String => a < b) us
      ∧ (∀ t, t ∈ us ↔ ((∃ i ∈ items, i.type = t) ∧ t ∉ WORK_ITEM_TYPE_ORDER))
      ∧ (∀ t, t ∈ changelogTypes ((group_work_items_by_type items).map Prod.fst) ↔
          ∃ i ∈ items, i.type = t) := by
  have hmem := mem_group_keys items
  have hnodup := nodup_group_keys items
  refine ⟨(((group_work_items_by_type items).map Prod.fst).insertionSort
      (fun a b => a ≤ b)).filter (fun t => t ∉ WORK_ITEM_TYPE_ORDER), ?_, ?_, ?_, ?_⟩
  · unfold changelogTypes
    congr 1
    apply List.filter_congr
    intro t _
    simp [hmem t]
  · have hs : List.Pairwise (fun a b : String => a ≤ b)
        ((((group_work_items_by_type items).map Prod.fst).insertionSort
          (fun a b => a ≤ b))) := List.sorted_insertionSort _ _
    have hnd : ((((group_work_items_by_type items).map Prod.fst).insertionSort
        (fun a b => a ≤ b))).Nodup :=
      ((List.perm_insertionSort (fun a b : String => a ≤ b) _).nodup_iff).mpr hnodup
    exact ((hs.and hnd).imp (fun h => lt_of_le_of_ne h.1 h.2)).filter _
  · intro t
    rw [List.mem_filter, List.mem_insertionSort, hmem t]
    simp
  · intro t
    unfold changelogTypes
    rw [List.mem_append]
    constructor
    · intro h
      rcases h with h1 | h2
      · have := (List.mem_filter.mp h1).2
        simp only [decide_eq_true_eq] at this
        exact (hmem t).mp this
      · have := (List.mem_filter.mp h2).1
        rw [List.mem_insertionSort] at this
        exact (hmem t).mp this
    · intro h
      have htk : t ∈ (group_work_items_by_type items).map Prod.fst := (hmem t).mpr h
      by_cases hk : t ∈ WORK_ITEM_TYPE_ORDER
      · exact Or.inl (List.mem_filter.mpr ⟨hk, by simp [htk]⟩)
      · exact Or.inr (List.mem_filter.mpr
          ⟨(List.mem_insertionSort _).mpr htk, by simp [hk]⟩)

theorem renderToks_cons (t : MarkupTok) (ts : List MarkupTok) :
    renderToks (t :: ts) = renderTok t ++ renderToks ts := by
  simp [renderToks]

theorem renderToks_append (a b : List MarkupTok) :
    renderToks (a ++ b) = renderToks a ++ renderToks b := by
  simp [renderToks]

theorem findIdx_gt_append (body R : List Char) (i : Nat) (h : '>' ∉ body) :
    List.findIdx? (fun d => d = '>') (body ++ '>' :: R) i = some (i + body.length) := by
  induction body generalizing i with
  | nil => simp [List.findIdx?_cons]
  | cons b bs ih =>
    have hb : b ≠ '>' := fun he => h (he ▸ List.mem_cons_self _ _)
    have hbs : '>' ∉ bs := fun hm => h (List.mem_cons_of_mem _ hm)
    rw [List.cons_append, List.findIdx?_cons, if_neg (by simp [hb]), ih (i + 1) hbs]
    congr 1
    simp
    omega

theorem stripTagsF_render : ∀ (ts : List MarkupTok), (∀ t ∈ ts, tokOk t) →
    ∀ fuel, (renderToks ts).length ≤ fuel →
    stripTagsF fuel (renderToks ts) = wsChars ts := by
  intro ts
  induction ts with
  | nil =>
    intro _ fuel _
    show stripTagsF fuel [] = []
    cases fuel <;> rfl
  | cons t rest ih =>
    intro hok fuel hlen
    have hokt : tokOk t := hok t (List.mem_cons_self _ _)
    have hokr : ∀ x ∈ rest, tokOk x := fun x hx => hok x (List.mem_cons_of_mem _ hx)
    rw [renderToks_cons] at hlen ⊢
    match t with
    | .ws c =>
      have hc : pyIsSpace c = true := hokt
      have hcne : c ≠ '<' := by
        intro he
        rw [he] at hc
        exact absurd hc (by decide)
      show stripTagsF fuel (c :: renderToks rest) = wsChars (MarkupTok.ws c :: rest)
      cases fuel with
      | zero => simp [renderTok] at hlen
      | succ f =>
        rw [stripTagsF, if_neg hcne]
        have hlen2 : (renderToks rest).length ≤ f := by
          simp [renderTok] at hlen
          omega
        rw [ih hokr f hlen2]
        simp [wsChars]
    | .tag body =>
      obtain ⟨hb1, hb2, hb3⟩ := hokt
      have hr : renderTok (MarkupTok.tag body) ++ renderToks rest =
          '<' :: (body ++ '>' :: renderToks rest) := by
        simp [renderTok]
      rw [hr] at hlen ⊢
      cases fuel with
      | zero => simp at hlen
      | succ f =>
        rw [stripTagsF, if_pos rfl, findIdx_gt_append body _ 0 hb3]
        have hk1 : 1 ≤ 0 + body.length := by
          have := List.length_pos.mpr hb1
          omega
        simp only [Nat.zero_add]
        rw [if_pos (by omega : 1 ≤ body.length)]
        have hdrop : (body ++ '>' :: renderToks rest).drop (body.length + 1) =
            renderToks rest := by
          have h2 : body ++ '>' :: renderToks rest = (body ++ ['>']) ++ renderToks rest := by
            simp
          have h3 : body.length + 1 = (body ++ ['>']).length := by simp
          rw [h2, h3, List.drop_left]
        rw [hdrop]
        have hlen2 : (renderToks rest).length ≤ f := by
          simp at hlen
          omega
        rw [ih hokr f hlen2]
        simp [wsChars]

theorem findSub_prefix : ∀ (s pat : List Char) (p : Nat),
    findSub s pat = some p → pat <+: s.drop p := by
  intro s
  induction s with
  | nil =>
    intro pat p h
    rw [findSub] at h
    by_cases hp : pat = []
    · rw [if_pos hp] at h
      cases h
      subst hp
      simp
    · rw [if_neg hp] at h
      cases h
  | cons c rest ih =>
    intro pat p h
    rw [findSub] at h
    by_cases hpre : pat.isPrefixOf (c :: rest) = true
    · rw [if_pos hpre] at h
      cases h
      simpa using List.isPrefixOf_iff_prefix.mp hpre
    · rw [if_neg hpre] at h
      obtain ⟨q, hq, rfl⟩ := Option.map_eq_some'.mp h
      rw [List.drop_succ_cons]
      exact ih pat q hq

theorem inner_eq_body : ∀ (inner body : List Char), '>' ∉ inner → '>' ∉ body →
    ∀ (R t : List Char), inner ++ '>' :: t = body ++ '>' :: R → inner = body := by
  intro inner
  induction inner with
  | nil =>
    intro body _ hgb R t h
    cases body with
    | nil => rfl
    | cons b bs =>
      rw [List.nil_append, List.cons_append] at h
      have hb : b = '>' := (List.cons_eq_cons.mp h).1.symm
      exact absurd (hb ▸ List.mem_cons_self b bs) hgb
  | cons a as ih =>
    intro body hgi hgb R t h
    cases body with
    | nil =>
      rw [List.cons_append, List.nil_append] at h
      have ha : a = '>' := (List.cons_eq_cons.mp h).1
      exact absurd (ha ▸ List.mem_cons_self a as) hgi
    | cons b bs =>
      rw [List.cons_append, List.cons_append] at h
      have hab := (List.cons_eq_cons.mp h).1
      have htail := (List.cons_eq_cons.mp h).2
      have hgi2 : '>' ∉ as := fun hm => hgi (List.mem_cons_of_mem _ hm)
      have hgb2 : '>' ∉ bs := fun hm => hgb (List.mem_cons_of_mem _ hm)
      rw [hab, ih bs hgi2 hgb2 R t htail]

theorem tag_occurrence : ∀ (ts : List MarkupTok), (∀ t ∈ ts, tokOk t) →
    ∀ (inner : List Char), inner ≠ [] → '<' ∉ inner → '>' ∉ inner →
    ∀ p, ('<' :: (inner ++ ['>'])) <+: (renderToks ts).drop p →
    ∃ pre post, ts = pre ++ MarkupTok.tag inner :: post ∧
      p = (renderToks pre).length := by
  intro ts
  induction ts with
  | nil =>
    intro _ inner _ _ _ p h
    rw [show renderToks [] = [] from rfl, List.drop_nil] at h
    obtain ⟨t, ht⟩ := h
    simp at ht
  | cons tk rest ih =>
    intro hok inner hne hlt hgt p h
    have hokt := hok tk (List.mem_cons_self _ _)
    have hokr : ∀ x ∈ rest, tokOk x := fun x hx => hok x (List.mem_cons_of_mem _ hx)
    rw [renderToks_cons] at h
    match tk with
    | .ws c =>
      have hc : pyIsSpace c = true := hokt
      cases p with
      | zero =>
        obtain ⟨t, ht⟩ := h
        have hce : '<' = c := by
          have := congrArg List.head? ht
          simpa [renderTok] using this
        rw [← hce] at hc
        exact absurd hc (by decide)
      | succ q =>
        have hdq : ((renderTok (MarkupTok.ws c) ++ renderToks rest).drop (q + 1)) =
            (renderToks rest).drop q := by
          simp [renderTok]
        rw [hdq] at h
        obtain ⟨pre, post, hts, hp⟩ := ih hokr inner hne hlt hgt q h
        refine ⟨.ws c :: pre, post, by simp [hts], ?_⟩
        rw [renderToks_cons]
        simp [renderTok, hp]
    | .tag body =>
      obtain ⟨hb1, hblt, hbgt⟩ := hokt
      have hrt : renderTok (MarkupTok.tag body) = '<' :: (body ++ ['>']) := rfl
      rw [hrt] at h
      by_cases hp0 : p = 0
      · subst hp0
        obtain ⟨t, ht⟩ := h
        rw [List.drop_zero] at ht
        have h2 : inner ++ '>' :: t = body ++ '>' :: renderToks rest := by
          simpa using ht
        have hbe : inner = body := inner_eq_body inner body hgt hbgt _ _ h2
        exact ⟨[], rest, by simp [hbe], rfl⟩
      · by_cases hpl : p < body.length + 2
        · exfalso
          obtain ⟨q, rfl⟩ : ∃ q, p = q + 1 := ⟨p - 1, by omega⟩
          have hM : (('<' :: (body ++ ['>'])) ++ renderToks rest).drop (q + 1) =
              ((body ++ ['>']) ++ renderToks rest).drop q := by
            simp
          rw [hM] at h
          obtain ⟨t, ht⟩ := h
          have hhead : ((((body ++ ['>']) ++ renderToks rest)).drop q).head? = some '<' := by
            rw [← ht]
            simp
          rw [List.head?_drop, List.getElem?_append] at hhead
          have hq : q < (body ++ ['>']).length := by
            simp only [List.length_append, List.length_cons, List.length_nil]
            omega
          rw [if_pos hq] at hhead
          have hmem : '<' ∈ body ++ ['>'] := List.getElem?_mem hhead
          rcases List.mem_append.mp hmem with hm1 | hm2
          · exact hblt hm1
          · simp at hm2
        · obtain ⟨q, rfl⟩ : ∃ q, p = (body.length + 2) + q :=
            ⟨p - (body.length + 2), by omega⟩
          have hdq : (('<' :: (body ++ ['>'])) ++ renderToks rest).drop (body.length + 2 + q) =
              (renderToks rest).drop q := by
            have hl : ('<' :: (body ++ ['>'])).length = body.length + 2 := by simp
            rw [← hl, List.drop_append]
          rw [hdq] at h
          obtain ⟨pre, post, hts, hp⟩ := ih hokr inner hne hlt hgt q h
          refine ⟨.tag body :: pre, post, by simp [hts], ?_⟩
          rw [renderToks_cons, hrt]
          simp [hp]
          omega

theorem findallLiF_render : ∀ (fuel : Nat) (ts : List MarkupTok), (∀ t ∈ ts, tokOk t) →
    ∀ cap ∈ findallLiF fuel (renderToks ts),
    ∃ ts2, (∀ t ∈ ts2, tokOk t) ∧ cap = renderToks ts2 := by
  intro fuel
  induction fuel with
  | zero =>
    intro ts _ cap hcap
    simp [findallLiF] at hcap
  | succ f ih =>
    intro ts hok cap hcap
    rw [findallLiF] at hcap
    cases hfs : findSub (renderToks ts) liOpen with
    | none =>
      simp only [hfs] at hcap
      exact absurd hcap (List.not_mem_nil cap)
    | some p =>
      simp only [hfs] at hcap
      have hpre := findSub_prefix _ _ _ hfs
      rw [show liOpen = '<' :: (['l', 'i'] ++ ['>']) from rfl] at hpre
      obtain ⟨pre, post, hts, hp⟩ :=
        tag_occurrence ts hok ['l', 'i'] (by simp) (by decide) (by decide) p hpre
      have hokpost : ∀ x ∈ post, tokOk x := fun x hx =>
        hok x (by rw [hts]; exact List.mem_append_right _ (List.mem_cons_of_mem _ hx))
      have hafter : (renderToks ts).drop (p + 4) = renderToks post := by
        rw [hts, renderToks_append, renderToks_cons,
          show renderTok (MarkupTok.tag ['l', 'i']) = ['<', 'l', 'i', '>'] from rfl,
          hp, List.drop_append]
        rfl
      rw [hafter] at hcap
      cases hfs2 : findSub (renderToks post) liClose with
      | none =>
        simp only [hfs2] at hcap
        exact absurd hcap (List.not_mem_nil cap)
      | some q =>
        simp only [hfs2] at hcap
        have hpre2 := findSub_prefix _ _ _ hfs2
        rw [show liClose = '<' :: (['/', 'l', 'i'] ++ ['>']) from rfl] at hpre2
        obtain ⟨mid, post2, hpost, hq⟩ :=
          tag_occurrence post hokpost ['/', 'l', 'i'] (by simp) (by decide) (by decide) q hpre2
        have hokmid : ∀ x ∈ mid, tokOk x := fun x hx =>
          hokpost x (by rw [hpost]; exact List.mem_append_left _ hx)
        have hokpost2 : ∀ x ∈ post2, tokOk x := fun x hx =>
          hokpost x (by rw [hpost]; exact List.mem_append_right _ (List.mem_cons_of_mem _ hx))
        have htake : (renderToks post).take q = renderToks mid := by
          rw [hpost, renderToks_append, hq, List.take_left]
        have hdrop5 : (renderToks post).drop (q + 5) = renderToks post2 := by
          rw [hpost, renderToks_append, renderToks_cons,
            show renderTok (MarkupTok.tag ['/', 'l', 'i']) = ['<', '/', 'l', 'i', '>'] from rfl,
            hq, List.drop_append]
          rfl
        rw [htake, hdrop5] at hcap
        rcases List.mem_cons.mp hcap with rfl | hcap2
        · exact ⟨mid, hokmid, rfl⟩
        · exact ih post2 hokpost2 cap hcap2

/-- C4. Deployment-notes extraction is a total function on strings: the two
concrete behaviours of the spec, the guarantee that an input made of
whitespace and markup alone yields no entries, and the two general branches
(each marker's tag-stripped trimmed non-empty content in order when markers
exist; the tag-stripped trimmed whole otherwise). -/
theorem deployment_notes_extraction :
    convert_notes_to_list_items "<ul><li>A</li><li>B</li></ul>" = ["A", "B"]
    ∧ convert_notes_to_list_items "Do X" = ["Do X"]
    ∧ (∀ ts : List MarkupTok, (∀ t ∈ ts, tokOk t) →
        convert_notes_to_list_items (String.mk (renderToks ts)) = [])
    ∧ (∀ s : String, findallLi s.data ≠ [] →
        convert_notes_to_list_items s =
          (((findallLi s.data).map cleanLi).filter (fun c => c ≠ [])).map
            (fun l => String.mk l))
    ∧ (∀ s : String, findallLi s.data = [] →
        convert_notes_to_list_items s =
          (if pyStrip (stripTags s.data) ≠ [] then
            [String.mk (pyStrip (stripTags s.data))]
          else [])) := by
  refine ⟨by decide, by decide, ?_, ?_, ?_⟩
  · intro ts hok
    have hdata : (String.mk (renderToks ts)).data = renderToks ts := rfl
    have hstripnil : pyStrip (stripTags (renderToks ts)) = [] := by
      have hstrip : stripTags (renderToks ts) = wsChars ts :=
        stripTagsF_render ts hok _ (le_refl _)
      rw [hstrip]
      apply pyStrip_of_all_space
      intro c hc
      obtain ⟨tok, htok, hsome⟩ := List.mem_filterMap.mp hc
      match tok, hsome with
      | .ws c2, hsome =>
        have hc2 : c2 = c := by simpa using hsome
        exact hc2 ▸ hok _ htok
    unfold convert_notes_to_list_items
    rw [hdata]
    by_cases hli : findallLi (renderToks ts) = []
    · rw [if_neg (by simp [hli]), hstripnil, if_neg (by simp)]
    · rw [if_pos hli]
      have hfilter : ((findallLi (renderToks ts)).map cleanLi).filter (fun c => c ≠ []) = [] := by
        rw [List.filter_eq_nil_iff]
        intro c hc
        obtain ⟨cap, hcap, rfl⟩ := List.mem_map.mp hc
        obtain ⟨ts2, hok2, rfl⟩ := findallLiF_render _ ts hok cap hcap
        have hclean : cleanLi (renderToks ts2) = [] := by
          unfold cleanLi
          have hstrip2 : stripTags (renderToks ts2) = wsChars ts2 :=
            stripTagsF_render ts2 hok2 _ (le_refl _)
          rw [hstrip2]
          apply pyStrip_of_all_space
          intro c hc
          obtain ⟨tok, htok, hsome⟩ := List.mem_filterMap.mp hc
          match tok, hsome with
          | .ws c2, hsome =>
            have hc2 : c2 = c := by simpa using hsome
            exact hc2 ▸ hok2 _ htok
        simp [hclean]
      rw [hfilter]
      rfl
  · intro s h
    unfold convert_notes_to_list_items
    rw [if_pos h]
  · intro s h
    unfold convert_notes_to_list_items
    rw [if_neg (by simp [h])]

theorem breakdown_shape (grouped : List (String × List WorkItem)) :
    ∀ x ∈ add_breakdown_by_type grouped,
      x ∈ ["**Breakdown by Type:**", ""] ∨ ∃ r, x = "- " ++ r := by
  intro x hx
  unfold add_breakdown_by_type at hx
  rcases List.mem_append.mp hx with h | h
  · exact Or.inl h
  · rcases List.mem_append.mp h with h | h
    · rcases List.mem_append.mp h with h | h
      · obtain ⟨t, _, rfl⟩ := List.mem_map.mp h
        exact Or.inr ⟨_, rfl⟩
      · obtain ⟨t, _, rfl⟩ := List.mem_map.mp h
        exact Or.inr ⟨_, rfl⟩
    · rw [List.mem_singleton] at h
      subst h
      exact Or.inl (by decide)

theorem summary_shape (work_items : List WorkItem) (releases : List Release)
    (grouped : List (String × List WorkItem)) (summary : List String)
    (h : add_summary_section work_items releases grouped = some summary) :
    ∀ x ∈ summary,
      x ∈ ["## 📊 Summary", "", "**Breakdown by Type:**"]
      ∨ (∃ r, x = "**Release Date:** " ++ r)
      ∨ (∃ r, x = "**Iteration:** " ++ r)
      ∨ (∃ r, x = "**Total Work Items:** " ++ r)
      ∨ (∃ r, x = "**Microservices Released:** " ++ r)
      ∨ (∃ r, x = "- " ++ r) := by
  intro x hx
  unfold add_summary_section at h
  obtain ⟨date, _, hsum⟩ := Option.map_eq_some'.mp h
  rw [← hsum] at hx
  rcases List.mem_append.mp hx with h9 | hbd
  · simp only [List.mem_cons, List.not_mem_nil, or_false] at h9
    rcases h9 with rfl | rfl | rfl | rfl | rfl | rfl | rfl | rfl | rfl
    · exact Or.inl (by decide)
    · exact Or.inl (by decide)
    · exact Or.inr (Or.inl ⟨_, rfl⟩)
    · exact Or.inl (by decide)
    · exact Or.inr (Or.inr (Or.inl ⟨_, rfl⟩))
    · exact Or.inl (by decide)
    · exact Or.inr (Or.inr (Or.inr (Or.inl ⟨_, rfl⟩)))
    · exact Or.inr (Or.inr (Or.inr (Or.inr (Or.inl ⟨_, rfl⟩))))
    · exact Or.inl (by decide)
  · rcases breakdown_shape grouped x hbd with h1 | h2
    · rcases List.mem_cons.mp h1 with rfl | h3
      · exact Or.inl (by decide)
      · rcases List.mem_cons.mp h3 with rfl | h4
        · exact Or.inl (by decide)
        · exact absurd h4 (List.not_mem_nil x)
    · exact Or.inr (Or.inr (Or.inr (Or.inr (Or.inr h2))))

theorem binaries_shape (org proj : String) (releases : List Release) :
    ∀ x ∈ add_binaries_section org proj releases,
      x ∈ ["## 📦 Binaries", "", "| Microservice | Version |", "|--------------|---------|"]
      ∨ ∃ r, x = "| " ++ r := by
  intro x hx
  unfold add_binaries_section at hx
  by_cases he : releases.isEmpty
  · rw [if_pos he] at hx
    exact absurd hx (List.not_mem_nil x)
  · rw [if_neg he] at hx
    rcases List.mem_append.mp hx with h | h
    · exact Or.inl h
    · rcases List.mem_append.mp h with h | h
      · obtain ⟨r, _, rfl⟩ := List.mem_map.mp h
        exact Or.inr ⟨_, rfl⟩
      · rw [List.mem_singleton] at h
        subst h
        exact Or.inl (by decide)

theorem work_items_for_type_shape (org proj work_type : String) (items : List WorkItem) :
    ∀ x ∈ add_work_items_for_type org proj work_type items,
      x = "" ∨ (∃ r, x = "### " ++ r) ∨ (∃ r, x = "- " ++ r) := by
  intro x hx
  unfold add_work_items_for_type at hx
  rcases List.mem_append.mp hx with h | h
  · rcases List.mem_cons.mp h with rfl | h2
    · exact Or.inr (Or.inl ⟨_, rfl⟩)
    · rw [List.mem_singleton] at h2
      subst h2
      exact Or.inl rfl
  · rcases List.mem_append.mp h with h | h
    · obtain ⟨i, _, rfl⟩ := List.mem_map.mp h
      exact Or.inr (Or.inr ⟨_, rfl⟩)
    · rw [List.mem_singleton] at h
      subst h
      exact Or.inl rfl

theorem changelog_shape (org proj : String) (grouped : List (String × List WorkItem)) :
    ∀ x ∈ add_changelog_section org proj grouped,
      x ∈ ["## 📝 Changelog", ""] ∨ (∃ r, x = "### " ++ r) ∨ (∃ r, x = "- " ++ r) := by
  intro x hx
  unfold add_changelog_section at hx
  rcases List.mem_append.mp hx with h | h
  · exact Or.inl h
  · obtain ⟨b, hb, hxb⟩ := List.mem_flatten.mp h
    obtain ⟨t, _, rfl⟩ := List.mem_map.mp hb
    rcases work_items_for_type_shape org proj t _ x hxb with rfl | h | h
    · exact Or.inl (by decide)
    · exact Or.inr (Or.inl h)
    · exact Or.inr (Or.inr h)

theorem deployment_item_shape (org proj : String) (item : WorkItem) :
    ∀ x ∈ add_deployment_instruction_item org proj item,
      x = "" ∨ (∃ r, x = "- " ++ r) ∨ (∃ r, x = "  - " ++ r) := by
  intro x hx
  unfold add_deployment_instruction_item at hx
  rcases List.mem_cons.mp hx with rfl | h
  · exact Or.inr (Or.inl ⟨_, rfl⟩)
  · rcases List.mem_append.mp h with h | h
    · obtain ⟨n, _, rfl⟩ := List.mem_map.mp h
      exact Or.inr (Or.inr ⟨_, rfl⟩)
    · rw [List.mem_singleton] at h
      subst h
      exact Or.inl rfl

theorem deployment_shape (org proj : String) (work_items : List WorkItem) :
    ∀ x ∈ add_deployment_instructions_section org proj work_items,
      x ∈ ["## 🚀 Deployment Instructions", ""]
      ∨ (∃ r, x = "- " ++ r) ∨ (∃ r, x = "  - " ++ r) := by
  intro x hx
  unfold add_deployment_instructions_section at hx
  by_cases he : (filter_items_with_notes work_items).isEmpty
  · rw [if_pos he] at hx
    exact absurd hx (List.not_mem_nil x)
  · rw [if_neg he] at hx
    rcases List.mem_append.mp hx with h | h
    · exact Or.inl h
    · obtain ⟨b, hb, hxb⟩ := List.mem_flatten.mp h
      obtain ⟨i, _, rfl⟩ := List.mem_map.mp hb
      rcases deployment_item_shape org proj i x hxb with rfl | h | h
      · exact Or.inl (by decide)
      · exact Or.inr (Or.inl h)
      · exact Or.inr (Or.inr h)

theorem contributors_shape (contributors : Finset String) :
    ∀ x ∈ add_contributors_section contributors,
      x ∈ ["## 👥 Contributors", ""] ∨ ∃ r, x = "- " ++ r := by
  intro x hx
  unfold add_contributors_section at hx
  by_cases he : contributors = ∅
  · rw [if_pos he] at hx
    exact absurd hx (List.not_mem_nil x)
  · rw [if_neg he] at hx
    rcases List.mem_append.mp hx with h | h
    · exact Or.inl h
    · rcases List.mem_append.mp h with h | h
      · obtain ⟨c, _, rfl⟩ := List.mem_map.mp h
        exact Or.inr ⟨_, rfl⟩
      · rw [List.mem_singleton] at h
        subst h
        exact Or.inl (by decide)

/-- C5. Structural section omission: in any successfully generated document,
the Binaries heading and table header appear exactly when the releases list
is non-empty, the Contributors heading exactly when the contributor set is
non-empty, and the Deployment Instructions heading exactly when some work
item has non-absent notes. Stated for inputs obeying the data-model
invariant that present notes are non-empty strings. -/
theorem section_omission (org proj rel : String) (work_items : List WorkItem)
    (releases : List Release) (contributors : Finset String) (lines : List String)
    (hnotes : ∀ i ∈ work_items, i.notes ≠ some "")
    (hgen : generate_lines org proj rel work_items releases contributors = some lines) :
    (("## 📦 Binaries" ∈ lines ∧ "| Microservice | Version |" ∈ lines) ↔ releases ≠ [])
    ∧ (("## 👥 Contributors" ∈ lines) ↔ contributors ≠ ∅)
    ∧ (("## 🚀 Deployment Instructions" ∈ lines) ↔ ∃ i ∈ work_items, i.notes ≠ none) := by
  simp only [generate_lines] at hgen
  obtain ⟨summary, hsum, hlines⟩ := Option.map_eq_some'.mp hgen
  subst hlines
  have hBsum : "## 📦 Binaries" ∉ summary := by
    intro hmem
    rcases summary_shape work_items releases _ summary hsum _ hmem with h | h | h | h | h | h <;>
      first
        | exact absurd h (by decide)
        | (obtain ⟨r, hr⟩ := h
           exact append_ne_of_not_prefix _ _ _ (by decide) hr.symm)
  have hCsum : "## 👥 Contributors" ∉ summary := by
    intro hmem
    rcases summary_shape work_items releases _ summary hsum _ hmem with h | h | h | h | h | h <;>
      first
        | exact absurd h (by decide)
        | (obtain ⟨r, hr⟩ := h
           exact append_ne_of_not_prefix _ _ _ (by decide) hr.symm)
  have hDsum : "## 🚀 Deployment Instructions" ∉ summary := by
    intro hmem
    rcases summary_shape work_items releases _ summary hsum _ hmem with h | h | h | h | h | h <;>
      first
        | exact absurd h (by decide)
        | (obtain ⟨r, hr⟩ := h
           exact append_ne_of_not_prefix _ _ _ (by decide) hr.symm)
  have hBchl : "## 📦 Binaries" ∉
      add_changelog_section org proj (group_work_items_by_type work_items) := by
    intro hmem
    rcases changelog_shape org proj _ _ hmem with h | h | h <;>
      first
        | exact absurd h (by decide)
        | (obtain ⟨r, hr⟩ := h
           exact append_ne_of_not_prefix _ _ _ (by decide) hr.symm)
  have hCchl : "## 👥 Contributors" ∉
      add_changelog_section org proj (group_work_items_by_type work_items) := by
    intro hmem
    rcases changelog_shape org proj _ _ hmem with h | h | h <;>
      first
        | exact absurd h (by decide)
        | (obtain ⟨r, hr⟩ := h
           exact append_ne_of_not_prefix _ _ _ (by decide) hr.symm)
  have hDchl : "## 🚀 Deployment Instructions" ∉
      add_changelog_section org proj (group_work_items_by_type work_items) := by
    intro hmem
    rcases changelog_shape org proj _ _ hmem with h | h | h <;>
      first
        | exact absurd h (by decide)
        | (obtain ⟨r, hr⟩ := h
           exact append_ne_of_not_prefix _ _ _ (by decide) hr.symm)
  have hBdep : "## 📦 Binaries" ∉ add_deployment_instructions_section org proj work_items := by
    intro hmem
    rcases deployment_shape org proj _ _ hmem with h | h | h <;>
      first
        | exact absurd h (by decide)
        | (obtain ⟨r, hr⟩ := h
           exact append_ne_of_not_prefix _ _ _ (by decide) hr.symm)
  have hCdep : "## 👥 Contributors" ∉ add_deployment_instructions_section org proj work_items := by
    intro hmem
    rcases deployment_shape org proj _ _ hmem with h | h | h <;>
      first
        | exact absurd h (by decide)
        | (obtain ⟨r, hr⟩ := h
           exact append_ne_of_not_prefix _ _ _ (by decide) hr.symm)
  have hBcon : "## 📦 Binaries" ∉ add_contributors_section contributors := by
    intro hmem
    rcases contributors_shape _ _ hmem with h | h <;>
      first
        | exact absurd h (by decide)
        | (obtain ⟨r, hr⟩ := h
           exact append_ne_of_not_prefix _ _ _ (by decide) hr.symm)
  have hDcon : "## 🚀 Deployment Instructions" ∉ add_contributors_section contributors := by
    intro hmem
    rcases contributors_shape _ _ hmem with h | h <;>
      first
        | exact absurd h (by decide)
        | (obtain ⟨r, hr⟩ := h
           exact append_ne_of_not_prefix _ _ _ (by decide) hr.symm)
  have hCbin : "## 👥 Contributors" ∉ add_binaries_section org proj releases := by
    intro hmem
    rcases binaries_shape org proj _ _ hmem with h | h <;>
      first
        | exact absurd h (by decide)
        | (obtain ⟨r, hr⟩ := h
           exact append_ne_of_not_prefix _ _ _ (by decide) hr.symm)
  have hDbin : "## 🚀 Deployment Instructions" ∉ add_binaries_section org proj releases := by
    intro hmem
    rcases binaries_shape org proj _ _ hmem with h | h <;>
      first
        | exact absurd h (by decide)
        | (obtain ⟨r, hr⟩ := h
           exact append_ne_of_not_prefix _ _ _ (by decide) hr.symm)
  have hdepiff : ¬((filter_items_with_notes work_items).isEmpty = true) ↔
      ∃ i ∈ work_items, i.notes ≠ none := by
    rw [List.isEmpty_iff]
    unfold filter_items_with_notes
    constructor
    · intro hne2
      have hf : work_items.filter (fun i => notes_truthy i.notes) ≠ [] := by
        intro hf0
        apply hne2
        rw [hf0]
        rfl
      obtain ⟨i, hi⟩ := List.exists_mem_of_ne_nil _ hf
      have hmf := List.mem_filter.mp hi
      refine ⟨i, hmf.1, ?_⟩
      intro hnone
      have hb := hmf.2
      rw [hnone] at hb
      exact absurd hb (by decide)
    · rintro ⟨i, hi, hne3⟩ hsorted
      have hperm := List.perm_insertionSort (fun a b : WorkItem => a.id ≤ b.id)
        (work_items.filter (fun i => notes_truthy i.notes))
      rw [hsorted] at hperm
      have hfnil : work_items.filter (fun i => notes_truthy i.notes) = [] :=
        hperm.symm.eq_nil
      have hni := List.filter_eq_nil_iff.mp hfnil i hi
      cases hn : i.notes with
      | none => exact hne3 hn
      | some s =>
        have hs : s ≠ "" := fun he => hnotes i hi (by rw [hn, he])
        apply hni
        rw [hn]
        simp [notes_truthy, hs]
  refine ⟨?_, ?_, ?_⟩
  · constructor
    · rintro ⟨hB, -⟩
      intro hrel
      rcases List.mem_cons.mp hB with heq | hB
      · exact append_ne_of_not_prefix _ _ _ (by decide) heq.symm
      rcases List.mem_cons.mp hB with heq | hB
      · exact absurd heq (by decide)
      rcases List.mem_append.mp hB with hB | hB
      rotate_left
      · exact hBcon hB
      rcases List.mem_append.mp hB with hB | hB
      rotate_left
      · exact hBdep hB
      rcases List.mem_append.mp hB with hB | hB
      rotate_left
      · exact hBchl hB
      rcases List.mem_append.mp hB with hB | hB
      · exact hBsum hB
      · unfold add_binaries_section at hB
        rw [if_pos (by simp [hrel])] at hB
        exact absurd hB (List.not_mem_nil _)
    · intro hrel
      have hin1 : "## 📦 Binaries" ∈ add_binaries_section org proj releases := by
        unfold add_binaries_section
        rw [if_neg (by simp [hrel])]
        exact List.mem_append_left _ (by decide)
      have hin2 : "| Microservice | Version |" ∈ add_binaries_section org proj releases := by
        unfold add_binaries_section
        rw [if_neg (by simp [hrel])]
        exact List.mem_append_left _ (by decide)
      constructor <;>
        (apply List.mem_cons_of_mem
         apply List.mem_cons_of_mem
         apply List.mem_append_left
         apply List.mem_append_left
         apply List.mem_append_left
         apply List.mem_append_right)
      · exact hin1
      · exact hin2
  · constructor
    · intro hC
      intro hcon
      rcases List.mem_cons.mp hC with heq | hC
      · exact append_ne_of_not_prefix _ _ _ (by decide) heq.symm
      rcases List.mem_cons.mp hC with heq | hC
      · exact absurd heq (by decide)
      rcases List.mem_append.mp hC with hC | hC
      rotate_left
      · unfold add_contributors_section at hC
        rw [if_pos hcon] at hC
        exact absurd hC (List.not_mem_nil _)
      rcases List.mem_append.mp hC with hC | hC
      rotate_left
      · exact hCdep hC
      rcases List.mem_append.mp hC with hC | hC
      rotate_left
      · exact hCchl hC
      rcases List.mem_append.mp hC with hC | hC
      · exact hCsum hC
      · exact hCbin hC
    · intro hcon
      apply List.mem_cons_of_mem
      apply List.mem_cons_of_mem
      apply List.mem_append_right
      unfold add_contributors_section
      rw [if_neg hcon]
      exact List.mem_cons_self _ _
  · constructor
    · intro hD
      rw [← hdepiff]
      intro hdememp
      rcases List.mem_cons.mp hD with heq | hD
      · exact append_ne_of_not_prefix _ _ _ (by decide) heq.symm
      rcases List.mem_cons.mp hD with heq | hD
      · exact absurd heq (by decide)
      rcases List.mem_append.mp hD with hD | hD
      rotate_left
      · exact hDcon hD
      rcases List.mem_append.mp hD with hD | hD
      rotate_left
      · unfold add_deployment_instructions_section at hD
        rw [if_pos hdememp] at hD
        exact absurd hD (List.not_mem_nil _)
      rcases List.mem_append.mp hD with hD | hD
      rotate_left
      · exact hDchl hD
      rcases List.mem_append.mp hD with hD | hD
      · exact hDsum hD
      · exact hDbin hD
    · intro hex
      have hne2 := hdepiff.mpr hex
      apply List.mem_cons_of_mem
      apply List.mem_cons_of_mem
      apply List.mem_append_left
      apply List.mem_append_right
      unfold add_deployment_instructions_section
      rw [if_neg hne2]
      exact List.mem_append_left _ (by decide)



/-- Witness for C5 at a one-release, no-item, no-contributor input. -/
theorem section_omission_witness :
    (∀ i ∈ ([] : List WorkItem), i.notes ≠ some "")
    ∧ generate_lines "o" "p" "R" [] [c5Release] ∅ = some c5Lines
    ∧ ((("## 📦 Binaries" ∈ c5Lines ∧ "| Microservice | Version |" ∈ c5Lines) ↔
          [c5Release] ≠ [])
       ∧ (("## 👥 Contributors" ∈ c5Lines) ↔ (∅ : Finset String) ≠ ∅)
       ∧ (("## 🚀 Deployment Instructions" ∈ c5Lines) ↔
          ∃ i ∈ ([] : List WorkItem), i.notes ≠ none)) := by
  have hgen : generate_lines "o" "p" "R" [] [c5Release] ∅ = some c5Lines := by decide
  exact ⟨by decide, hgen, section_omission "o" "p" "R" [] [c5Release] ∅ c5Lines (by decide) hgen⟩

/-- C10. The generator is total exactly up to timestamp parsing: when every
present production timestamp parses in the modelled `fromisoformat` (after
the `Z` replacement), `generate` yields a markdown string; and when the
lexicographic maximum of the truthy timestamps is present but malformed, the
date parsing raises and `generate` fails. -/
theorem generate_timestamp_precondition (org proj rel : String)
    (work_items : List WorkItem) (releases : List Release)
    (contributors : Finset String) :
    ((∀ r ∈ releases, ∀ t, r.prod_deploy_time = some t → valid_iso_timestamp t = true) →
      ∃ s, generate org proj rel work_items releases contributors = some s)
    ∧ (∀ t, t ∈ prodTimes releases → (∀ u ∈ prodTimes releases, u ≤ t) →
        valid_iso_timestamp t = false →
        generate org proj rel work_items releases contributors = none) := by
  constructor
  · intro hvalid
    rw [← Option.isSome_iff_exists]
    cases hex : extract_release_date releases with
    | some d =>
      simp [generate, generate_lines, add_summary_section, hex]
    | none =>
      exfalso
      unfold extract_release_date at hex
      by_cases h1 : releases.isEmpty
      · rw [if_pos h1] at hex
        simp at hex
      · rw [if_neg h1] at hex
        by_cases h2 : (prodTimes releases).isEmpty
        · rw [if_pos h2] at hex
          simp at hex
        · rw [if_neg h2] at hex
          have hpne : prodTimes releases ≠ [] := by
            intro he
            exact h2 (by simp [he])
          have hmem : maxString (prodTimes releases) ∈ prodTimes releases :=
            maxString_mem hpne
          have hsrc : ∀ t2, t2 ∈ prodTimes releases →
              ∃ r ∈ releases, r.prod_deploy_time = some t2 := by
            intro t2 ht2
            unfold prodTimes at ht2
            exact List.mem_filterMap.mp (List.mem_filter.mp ht2).1
          obtain ⟨r, hr, hrt⟩ := hsrc _ hmem
          have hval := hvalid r hr _ hrt
          unfold valid_iso_timestamp at hval
          unfold format_timestamp at hex
          cases hfi : fromisoformat (replaceZ (maxString (prodTimes releases))) with
          | none =>
            rw [hfi] at hval
            simp at hval
          | some d =>
            rw [hfi] at hex
            simp at hex
  · intro t htmem hmax hinvalid
    have hpne : prodTimes releases ≠ [] := by
      intro he
      rw [he] at htmem
      exact absurd htmem (List.not_mem_nil t)
    have hmax_eq : maxString (prodTimes releases) = t :=
      le_antisymm (hmax _ (maxString_mem hpne)) (le_maxString htmem)
    have hrne : ¬ releases.isEmpty = true := by
      intro he
      rw [List.isEmpty_iff.mp he] at htmem
      unfold prodTimes at htmem
      simp at htmem
    have hex : extract_release_date releases = none := by
      unfold extract_release_date
      rw [if_neg hrne, if_neg (by simp [hpne]), hmax_eq]
      unfold format_timestamp
      unfold valid_iso_timestamp at hinvalid
      cases hfi : fromisoformat (replaceZ t) with
      | some d =>
        rw [hfi] at hinvalid
        simp at hinvalid
      | none => simp [hfi]
    simp [generate, generate_lines, add_summary_section, hex]

/-- C9 evidence. `MarkdownGenerator._add_work_items_for_type` orders the
rendered work items by ascending id unconditionally: at an input whose title
order disagrees with the id order, the rendered lines follow the id order.
The generator's constructor takes no sort selector at all, although `main`
passes one (`generate_release_notes.py` line 164), which makes every CLI run
raise a `TypeError`. -/
theorem changelog_sorts_by_id_only :
    add_work_items_for_type "o" "p" "Task"
      [{ id := 2, title := "A", type := "Task", state := "s" },
       { id := 1, title := "B", type := "Task", state := "s" }] =
    ["### 🔧 Task (2)", "",
     "- [#1](o/p/_workitems/edit/1) B",
     "- [#2](o/p/_workitems/edit/2) A", ""] := by decide
